import Mathlib

/-!
Verification of the parser-combinator engine of misskey-dev/rosee.

The core library (a Parsimmon-like set of stateful parser combinators) is
embedded shallowly: the input string is a `List Char`, positions are `Nat`,
a handler is a pure function from input, index and state to a `Result`.
The `trace` diagnostics flag only drives console logging in the source
(the wrapper installed by the `Parser` constructor returns the inner
handler's result unchanged on both branches), so logging itself is not part
of the result model; the flag is kept in the state so that independence of
results from it can be stated and proved.

`many`'s accumulation loop in the source is a `while` loop that need not
terminate (a zero-width success repeats forever), so it is embedded with an
explicit fuel parameter; `none` means the loop is still running after the
given number of iterations, and termination at an input/position is the
existence of a fuel on which the loop finishes.
-/

namespace Rosee

/-- State threaded through every handler. `StateBase` in the source has the
single optional field `trace`; the missing field is modelled as `false`. -/
structure StateBase where
  trace : Bool
deriving DecidableEq

/-- Embeds `Result<T> = Success<T> | Failure`: a success carries the value and the
next index; a failure carries nothing (in particular no position). -/
inductive Result (α : Type) where
  | success (index : Nat) (value : α)
  | failure
deriving DecidableEq

/-- Embeds `ParserHandler<T, S>`: the pure content of a parser. -/
abbrev ParserH (α : Type) := List Char → Nat → StateBase → Result α

/-- The `success` field read on a result (`result.success` in the source). -/
def isSuccess {α : Type} : Result α → Bool
  | Result.success _ _ => true
  | Result.failure => false

/-- Embeds `str(value)`: fails when fewer than `value.length` characters remain
(the length check is on JS numbers, hence over `Int`), fails when the
substring of that length at `index` differs from `value`, and otherwise
succeeds with `value` at `index + value.length`. -/
def str (value : List Char) : ParserH (List Char) := fun input index _st =>
  if (input.length : Int) - (index : Int) < (value.length : Int) then Result.failure
  else if (input.drop index).take value.length ≠ value then Result.failure
  else Result.success (index + value.length) value

/-- Embeds `regexp(pattern)`: the JS RegExp engine is external to the repository, so
it is abstracted as a function `exec` giving the matched text of the pattern
anchored at the start of the given suffix (the `result[0]` of `^(?:...)`),
or `none` when there is no match. The handler runs it on `input.slice(index)`
and on a match advances by the matched text's length. -/
def regexp (exec : List Char → Option (List Char)) : ParserH (List Char) :=
  fun input index _st =>
    match exec (input.drop index) with
    | none => Result.failure
    | some m => Result.success (index + m.length) m

/-- Embeds `char`: consumes exactly one character when one remains. -/
def char : ParserH Char := fun input index _st =>
  if (input.length : Int) - (index : Int) < 1 then Result.failure
  else Result.success (index + 1) (input.getD index ' ')

/-- The loop body of `seq(...parsers)`, accumulating values left to right. -/
def seqLoop {α : Type} (input : List Char) (st : StateBase) :
    List (ParserH α) → Nat → List α → Result (List α)
  | [], latestIndex, accum => Result.success latestIndex accum
  | p :: rest, latestIndex, accum =>
    match p input latestIndex st with
    | Result.failure => Result.failure
    | Result.success i v => seqLoop input st rest i (accum ++ [v])

/-- Embeds `seq(...parsers)` (the source's heterogeneous tuple is modelled as a
homogeneous list, which the index/state behaviour does not depend on). -/
def seq {α : Type} (parsers : List (ParserH α)) : ParserH (List α) :=
  fun input index st => seqLoop input st parsers index []

/-- Embeds `alt(parsers)`: tries the alternatives in order at the same index and
returns the first success. -/
def alt {α : Type} : List (ParserH α) → ParserH α
  | [] => fun _input _index _st => Result.failure
  | p :: rest => fun input index st =>
    match p input index st with
    | Result.success i v => Result.success i v
    | Result.failure => alt rest input index st

/-- Embeds `succeeded(value)`: zero-width unconditional success. -/
def succeeded {α : Type} (value : α) : ParserH α :=
  fun _input index _st => Result.success index value

/-- Embeds `notMatch(parser)`: zero-width success (value `null`, modelled `Unit`)
exactly when the sub-parser fails. -/
def notMatch {α : Type} (parser : ParserH α) : ParserH Unit :=
  fun input index st =>
    match parser input index st with
    | Result.failure => Result.success index ()
    | Result.success _ _ => Result.failure

/-- Embeds `lazy(fn)`: defers construction; the memoisation of the constructed
handler on the cell does not change results for a pure `fn`. -/
def lazy {α : Type} (fn : Unit → ParserH α) : ParserH α :=
  fun input index st => fn () input index st

def cr : ParserH (List Char) := str ['\r']

def lf : ParserH (List Char) := str ['\n']

def crlf : ParserH (List Char) := str ['\r', '\n']

def newline : ParserH (List Char) := alt [crlf, cr, lf]

/-- Embeds `lineBegin`: zero-width success at index 0 or right after a `\r` or a
`\n` (the source consults `cr` then `lf` one position back). -/
def lineBegin : ParserH Unit := fun input index st =>
  if index = 0 then Result.success index ()
  else if isSuccess (cr input (index - 1) st) then Result.success index ()
  else if isSuccess (lf input (index - 1) st) then Result.success index ()
  else Result.failure

/-- Embeds `lineEnd`: zero-width success at the end of input or right before a
`\r` or a `\n`. -/
def lineEnd : ParserH Unit := fun input index st =>
  if index = input.length then Result.success index ()
  else if isSuccess (cr input index st) then Result.success index ()
  else if isSuccess (lf input index st) then Result.success index ()
  else Result.failure

namespace Parser

/-- Embeds `map(fn)`. -/
def map {α β : Type} (p : ParserH α) (fn : α → β) : ParserH β :=
  fun input index st =>
    match p input index st with
    | Result.failure => Result.failure
    | Result.success i v => Result.success i (fn v)

/-- Embeds `text()`: on success returns `input.slice(index, result.index)`. -/
def text {α : Type} (p : ParserH α) : ParserH (List Char) :=
  fun input index st =>
    match p input index st with
    | Result.failure => Result.failure
    | Result.success i _ => Result.success i ((input.drop index).take (i - index))

/-- The `while (latestIndex < input.length)` loop of `many(min)`, with an
explicit iteration budget: `none` means the budget ran out with the loop
still going, `some (latestIndex, accum)` that the loop exited there. -/
def manyLoop {α : Type} (p : ParserH α) (input : List Char) (st : StateBase) :
    Nat → Nat → List α → Option (Nat × List α)
  | 0, _latestIndex, _accum => none
  | fuel + 1, latestIndex, accum =>
    if latestIndex < input.length then
      match p input latestIndex st with
      | Result.failure => some (latestIndex, accum)
      | Result.success i v => manyLoop p input st fuel i (accum ++ [v])
    else some (latestIndex, accum)

/-- Embeds `many(min)`: when the loop exits, fail if fewer than `min` values were
accumulated, else succeed with the list at the loop's final index. -/
def many {α : Type} (p : ParserH α) (min : Nat) (fuel : Nat) :
    List Char → Nat → StateBase → Option (Result (List α)) :=
  fun input index st =>
    match manyLoop p input st fuel index [] with
    | none => none
    | some (latestIndex, accum) =>
      some (if accum.length < min then Result.failure else Result.success latestIndex accum)

/-- Embeds `many`'s loop terminates on this parser, input, index and state. -/
def ManyTerminates {α : Type} (p : ParserH α) (input : List Char) (index : Nat)
    (st : StateBase) : Prop :=
  ∃ fuel r, manyLoop p input st fuel index [] = some r

/-- Embeds `seq(separator, this).select(1)`: the element parser of `sep`'s inner
repetition — runs the separator, then the element, keeping the element's
value and index. -/
def sepElem {α β : Type} (p : ParserH α) (separator : ParserH β) : ParserH α :=
  fun input index st =>
    match separator input index st with
    | Result.failure => Result.failure
    | Result.success i _ => p input i st

/-- The handler `sep` builds when its `min` check passes:
`seq(this, seq(separator, this).select(1).many(min - 1)).map(...)`. -/
def sepRun {α β : Type} (p : ParserH α) (separator : ParserH β) (min : Int)
    (fuel : Nat) : List Char → Nat → StateBase → Option (Result (List α)) :=
  fun input index st =>
    match p input index st with
    | Result.failure => some Result.failure
    | Result.success i v =>
      match many (sepElem p separator) (min - 1).toNat fuel input i st with
      | none => none
      | some Result.failure => some Result.failure
      | some (Result.success j vs) => some (Result.success j (v :: vs))

/-- Embeds `sep(separator, min)`: throws (modelled `Except.error`) when `min < 1`
(`min` is a JS number, modelled `Int`), before any input is examined;
otherwise the constructed matcher is `sepRun`. -/
def sep {α β : Type} (p : ParserH α) (separator : ParserH β) (min : Int) :
    Except String (Nat → List Char → Nat → StateBase → Option (Result (List α))) :=
  if min < 1 then
    Except.error "\"min\" must be a value greater than or equal to 1."
  else Except.ok (sepRun p separator min)

/-- Embeds `option()`: `alt([this, succeeded(null)])`; the TS union `T | null` is
modelled as `Option`. -/
def option {α : Type} (p : ParserH α) : ParserH (Option α) :=
  alt [map p Option.some, succeeded Option.none]

end Parser

/-! Helper lemmas shared by several theorems. -/

/-- Embeds `str` restated as a single conditional: it succeeds exactly when
`value.length` characters remain at `index` and the input there starts
with `value`, advancing by exactly `value.length`. -/
theorem str_if_eq (value input : List Char) (index : Nat) (st : StateBase) :
    str value input index st =
      if index + value.length ≤ input.length ∧ (input.drop index).take value.length = value
      then Result.success (index + value.length) value
      else Result.failure := by
  unfold str
  split
  · rename_i h
    rw [if_neg]
    intro hc
    omega
  · rename_i h
    split
    · rename_i hne
      rw [if_neg]
      intro hc
      exact hne hc.2
    · rename_i hne
      rw [if_pos]
      exact ⟨by omega, not_not.mp hne⟩

/-- Taking one character of the suffix at `q` gives `[c]` exactly when the
character at `q` is `c`. -/
theorem take_one_drop (input : List Char) (q : Nat) (c : Char) :
    (input.drop q).take 1 = [c] ↔ input.get? q = some c := by
  induction input generalizing q with
  | nil => simp
  | cons a l ih =>
    cases q with
    | zero => simp
    | succ n => simpa using ih n

/-- A defined character position is inside the input. -/
theorem get?_some_lt (input : List Char) (q : Nat) (c : Char)
    (h : input.get? q = some c) : q < input.length := by
  induction input generalizing q with
  | nil => simp at h
  | cons a l ih =>
    cases q with
    | zero => simp
    | succ n =>
      simp only [List.get?_cons_succ] at h
      have := ih n h
      simp
      omega

/-- Single-character literal success test: `str [c]` succeeds at `q` exactly
when the character at `q` is `c`. -/
theorem isSuccess_str_single (c : Char) (input : List Char) (q : Nat) (st : StateBase) :
    isSuccess (str [c] input q st) = true ↔ input.get? q = some c := by
  rw [str_if_eq]
  constructor
  · intro h
    split at h
    · rename_i hc
      exact (take_one_drop input q c).mp (by simpa using hc.2)
    · simp [isSuccess] at h
  · intro h
    have hlt := get?_some_lt input q c h
    have ht := (take_one_drop input q c).mpr h
    rw [if_pos ⟨by simp only [List.length_singleton]; omega, by simpa using ht⟩]
    rfl

/-- Every success of the handler carries a next index at least the call
index (the spec's `nextPosition >= startPosition` invariant). -/
def Mono {α : Type} (p : ParserH α) : Prop :=
  ∀ input index st i v, p input index st = Result.success i v → index ≤ i

/-- The same index invariant for the fuelled handlers (`many`, `sepRun`),
whose results live under `Option`. -/
def MonoOpt {α : Type} (h : List Char → Nat → StateBase → Option (Result α)) : Prop :=
  ∀ input index st i v, h input index st = some (Result.success i v) → index ≤ i

/-- When `many`'s loop exits, its final index is at least its start index,
provided the sub-parser only moves the index forward. -/
theorem manyLoop_le {α : Type} (p : ParserH α) (hp : Mono p) (input : List Char)
    (st : StateBase) :
    ∀ fuel index accum j accum',
      Parser.manyLoop p input st fuel index accum = some (j, accum') → index ≤ j := by
  intro fuel
  induction fuel with
  | zero =>
    intro index accum j accum' h
    simp [Parser.manyLoop] at h
  | succ n ih =>
    intro index accum j accum' h
    unfold Parser.manyLoop at h
    split at h
    · cases hr : p input index st with
      | failure =>
        rw [hr] at h
        simp at h
        omega
      | success i v =>
        rw [hr] at h
        have h1 := hp input index st i v hr
        have h2 := ih i (accum ++ [v]) j accum' h
        omega
    · simp at h
      omega

/-- Embeds `many`'s fuelled handler only moves the index forward. -/
theorem many_monoOpt {α : Type} (p : ParserH α) (min fuel : Nat) (hp : Mono p) :
    MonoOpt (Parser.many p min fuel) := by
  intro input index st i v h
  unfold Parser.many at h
  cases hl : Parser.manyLoop p input st fuel index [] with
  | none => rw [hl] at h; simp at h
  | some r =>
    rw [hl] at h
    obtain ⟨j, accum⟩ := r
    have hle := manyLoop_le p hp input st fuel index [] j accum hl
    simp at h
    split at h
    · simp at h
    · cases h
      exact hle

/-- Embeds `sep`'s inner element parser only moves the index forward when both the
element and the separator do. -/
theorem sepElem_mono {α β : Type} (p : ParserH α) (separator : ParserH β)
    (hp : Mono p) (hs : Mono separator) : Mono (Parser.sepElem p separator) := by
  intro input index st i v h
  unfold Parser.sepElem at h
  cases hr : separator input index st with
  | failure => rw [hr] at h; simp at h
  | success j w =>
    rw [hr] at h
    have h1 := hs input index st j w hr
    have h2 := hp input j st i v h
    omega

/-- Embeds `seq`'s accumulation loop only moves the index forward. -/
theorem seqLoop_le {α : Type} (input : List Char) (st : StateBase) :
    ∀ (parsers : List (ParserH α)), (∀ p ∈ parsers, Mono p) →
      ∀ index accum j vs, seqLoop input st parsers index accum = Result.success j vs →
        index ≤ j := by
  intro parsers
  induction parsers with
  | nil =>
    intro _ index accum j vs h
    simp [seqLoop] at h
    omega
  | cons p rest ih =>
    intro hm index accum j vs h
    unfold seqLoop at h
    cases hr : p input index st with
    | failure => rw [hr] at h; simp at h
    | success i v =>
      rw [hr] at h
      have h1 := hm p (List.mem_cons_self p rest) input index st i v hr
      have h2 := ih (fun q hq => hm q (List.mem_cons_of_mem p hq)) i (accum ++ [v]) j vs h
      omega

/-- Embeds `alt` only moves the index forward when every alternative does. -/
theorem alt_mono {α : Type} :
    ∀ (parsers : List (ParserH α)), (∀ p ∈ parsers, Mono p) → Mono (alt parsers) := by
  intro parsers
  induction parsers with
  | nil =>
    intro _ input index st i v h
    simp [alt] at h
  | cons p rest ih =>
    intro hm input index st i v h
    unfold alt at h
    cases hr : p input index st with
    | failure =>
      rw [hr] at h
      exact ih (fun q hq => hm q (List.mem_cons_of_mem p hq)) input index st i v h
    | success j w =>
      rw [hr] at h
      cases h
      exact hm p (List.mem_cons_self p rest) input index st i v hr

/-- Embeds `lineBegin` returns either a failure or a zero-width success. -/
theorem lineBegin_zero_width (input : List Char) (index : Nat) (st : StateBase) :
    lineBegin input index st = Result.failure
    ∨ lineBegin input index st = Result.success index () := by
  unfold lineBegin
  split_ifs <;> simp

/-- Embeds `lineEnd` returns either a failure or a zero-width success. -/
theorem lineEnd_zero_width (input : List Char) (index : Nat) (st : StateBase) :
    lineEnd input index st = Result.failure
    ∨ lineEnd input index st = Result.success index () := by
  unfold lineEnd
  split_ifs <;> simp

/-! The claims. -/

/-- C7: the literal matcher `str(s)` succeeds with value `s` and index
advanced by exactly `s.length` when the input at that index starts with `s`
(there are at least `s.length` characters remaining and they equal `s`), and
fails otherwise — including when fewer than `s.length` characters remain.
A failure is `Result.failure`, which by construction carries no position, so
the caller's position is unchanged. -/
theorem str_literal_characterization (value input : List Char) (index : Nat) (st : StateBase) :
    str value input index st =
      if index + value.length ≤ input.length ∧ (input.drop index).take value.length = value
      then Result.success (index + value.length) value
      else Result.failure :=
  str_if_eq value input index st

/-- C3: `lineBegin` succeeds (zero-width, at the unchanged index) exactly at
index 0 or immediately after a `\r` or `\n` character, and `lineEnd`
succeeds (zero-width) exactly at the input's final index or immediately
before a `\r` or `\n`; at the position between the `\r` and the `\n` of a
`\r\n` pair both the after-`\r` and the before-`\n` cases apply, so both
assertions succeed there, as the terminator-priority rule (`\r\n`, `\r`,
`\n`) dictates for the constituent terminators. -/
theorem line_boundary_characterization (input : List Char) (index : Nat) (st : StateBase) :
    (lineBegin input index st =
      if index = 0 ∨ (1 ≤ index ∧ (input.get? (index - 1) = some '\r' ∨ input.get? (index - 1) = some '\n'))
      then Result.success index ()
      else Result.failure)
    ∧ (lineEnd input index st =
      if index = input.length ∨ input.get? index = some '\r' ∨ input.get? index = some '\n'
      then Result.success index ()
      else Result.failure) := by
  constructor
  · unfold lineBegin cr lf
    by_cases h0 : index = 0
    · simp [h0]
    · rw [if_neg h0]
      by_cases hr : input.get? (index - 1) = some '\r'
      · rw [if_pos (by rw [isSuccess_str_single]; exact hr)]
        rw [if_pos (by right; exact ⟨by omega, Or.inl hr⟩)]
      · rw [if_neg (by rw [isSuccess_str_single]; exact hr)]
        by_cases hn : input.get? (index - 1) = some '\n'
        · rw [if_pos (by rw [isSuccess_str_single]; exact hn)]
          rw [if_pos (by right; exact ⟨by omega, Or.inr hn⟩)]
        · rw [if_neg (by rw [isSuccess_str_single]; exact hn)]
          rw [if_neg]
          rintro (h | ⟨-, h | h⟩)
          · exact h0 h
          · exact hr h
          · exact hn h
  · unfold lineEnd cr lf
    by_cases h0 : index = input.length
    · simp [h0]
    · rw [if_neg h0]
      by_cases hr : input.get? index = some '\r'
      · rw [if_pos (by rw [isSuccess_str_single]; exact hr)]
        rw [if_pos (Or.inr (Or.inl hr))]
      · rw [if_neg (by rw [isSuccess_str_single]; exact hr)]
        by_cases hn : input.get? index = some '\n'
        · rw [if_pos (by rw [isSuccess_str_single]; exact hn)]
          rw [if_pos (Or.inr (Or.inr hn))]
        · rw [if_neg (by rw [isSuccess_str_single]; exact hn)]
          rw [if_neg]
          rintro (h | h | h)
          · exact h0 h
          · exact hr h
          · exact hn h

/-- C5: `option()` never fails: for every parser, input, index and state it
returns a success — the sub-parser's value (injected into `Option`) and
index when the sub-parser succeeds, and the absent value (`none`, the
source's `null`) at the unchanged index when it fails. -/
theorem option_never_fails {α : Type} (p : ParserH α) (input : List Char) (index : Nat)
    (st : StateBase) :
    Parser.option p input index st ≠ Result.failure
    ∧ Parser.option p input index st =
        (match p input index st with
         | Result.success i v => Result.success i (some v)
         | Result.failure => Result.success index none) := by
  cases h : p input index st <;>
    simp [Parser.option, alt, Parser.map, succeeded, h]

/-- C4: every successful outcome carries a next index at least the index the
matcher was called with: unconditionally for the primitives `str`, `regexp`,
`char`, `lineBegin`, `lineEnd` and `notMatch`, and for each combinator
(`map`, `text`, `many`, `sep`'s constructed handler, `option`, `seq`, `alt`,
`lazy`) whenever all of its sub-matchers satisfy the same property (`many`
and `sepRun` are stated on their fuelled handlers, a `some (success ..)`
result meaning the accumulation loop exited in a success). -/
theorem success_index_monotone :
    (∀ value : List Char, Mono (str value))
    ∧ (∀ exec, Mono (regexp exec))
    ∧ Mono char
    ∧ Mono lineBegin
    ∧ Mono lineEnd
    ∧ (∀ (α : Type) (p : ParserH α), Mono (notMatch p))
    ∧ (∀ (α β : Type) (p : ParserH α) (fn : α → β), Mono p → Mono (Parser.map p fn))
    ∧ (∀ (α : Type) (p : ParserH α), Mono p → Mono (Parser.text p))
    ∧ (∀ (α : Type) (p : ParserH α) (min fuel : Nat), Mono p → MonoOpt (Parser.many p min fuel))
    ∧ (∀ (α β : Type) (p : ParserH α) (separator : ParserH β) (min : Int) (fuel : Nat),
        Mono p → Mono separator → MonoOpt (Parser.sepRun p separator min fuel))
    ∧ (∀ (α : Type) (p : ParserH α), Mono p → Mono (Parser.option p))
    ∧ (∀ (α : Type) (parsers : List (ParserH α)), (∀ p ∈ parsers, Mono p) → Mono (seq parsers))
    ∧ (∀ (α : Type) (parsers : List (ParserH α)), (∀ p ∈ parsers, Mono p) → Mono (alt parsers))
    ∧ (∀ (α : Type) (fn : Unit → ParserH α), Mono (fn ()) → Mono (lazy fn)) := by
  refine ⟨?_, ?_, ?_, ?_, ?_, ?_, ?_, ?_, ?_, ?_, ?_, ?_, ?_, ?_⟩
  · intro value input index st i v h
    rw [str_if_eq] at h
    split at h
    · cases h; omega
    · simp at h
  · intro exec input index st i v h
    unfold regexp at h
    cases hr : exec (input.drop index) with
    | none => rw [hr] at h; simp at h
    | some m => rw [hr] at h; cases h; omega
  · intro input index st i v h
    unfold char at h
    split at h
    · simp at h
    · cases h; omega
  · intro input index st i v h
    rcases lineBegin_zero_width input index st with hz | hz <;> rw [hz] at h
    · simp at h
    · cases h; omega
  · intro input index st i v h
    rcases lineEnd_zero_width input index st with hz | hz <;> rw [hz] at h
    · simp at h
    · cases h; omega
  · intro α p input index st i v h
    unfold notMatch at h
    cases hr : p input index st with
    | failure => rw [hr] at h; cases h; omega
    | success j w => rw [hr] at h; simp at h
  · intro α β p fn hp input index st i v h
    unfold Parser.map at h
    cases hr : p input index st with
    | failure => rw [hr] at h; simp at h
    | success j w =>
      rw [hr] at h
      cases h
      exact hp input index st i w hr
  · intro α p hp input index st i v h
    unfold Parser.text at h
    cases hr : p input index st with
    | failure => rw [hr] at h; simp at h
    | success j w =>
      rw [hr] at h
      cases h
      exact hp input index st i w hr
  · intro α p min fuel hp
    exact many_monoOpt p min fuel hp
  · intro α β p separator min fuel hp hs input index st i vs h
    unfold Parser.sepRun at h
    cases hr : p input index st with
    | failure => rw [hr] at h; simp at h
    | success j v =>
      rw [hr] at h
      dsimp only at h
      have h1 := hp input index st j v hr
      cases hm : Parser.many (Parser.sepElem p separator) (min - 1).toNat fuel input j st with
      | none => rw [hm] at h; simp at h
      | some r =>
        rw [hm] at h
        cases r with
        | failure => simp at h
        | success k ws =>
          simp at h
          have h2 := many_monoOpt (Parser.sepElem p separator) (min - 1).toNat fuel
            (sepElem_mono p separator hp hs) input j st k ws hm
          omega
  · intro α p hp input index st i v h
    cases hr : p input index st with
    | failure =>
      simp [Parser.option, alt, Parser.map, succeeded, hr] at h
      omega
    | success j w =>
      simp [Parser.option, alt, Parser.map, succeeded, hr] at h
      rw [← h.1]
      exact hp input index st j w hr
  · intro α parsers hm input index st i v h
    exact seqLoop_le input st parsers hm index [] i v h
  · intro α parsers hm
    exact alt_mono parsers hm
  · intro α fn hp input index st i v h
    exact hp input index st i v h

/-- C4 witness: the `map` clause of the theorem applied to `char` with the
identity transform at a concrete input; the `Mono char` hypothesis is
discharged by the theorem's own `char` clause. -/
theorem success_index_monotone_witness :
    Parser.map char (fun c => c) ['a'] 0 { trace := false } = Result.success 1 'a'
    ∧ (0 : Nat) ≤ 1 :=
  ⟨by decide,
    success_index_monotone.2.2.2.2.2.2.1 Char Char char (fun c => c)
      success_index_monotone.2.2.1 ['a'] 0 { trace := false } 1 'a' (by decide)⟩

/-- The handler's outcome does not depend on the `trace` diagnostics flag
(the only field of `StateBase`, so the two states agree on everything
else). -/
def TraceIndep {α : Type} (p : ParserH α) : Prop :=
  ∀ input index, p input index { trace := true } = p input index { trace := false }

/-- Trace independence for the fuelled handlers (`many`, `sepRun`). -/
def TraceIndepOpt {α : Type} (h : List Char → Nat → StateBase → Option (Result α)) : Prop :=
  ∀ input index, h input index { trace := true } = h input index { trace := false }

/-- Embeds `many`'s loop is trace-independent when its sub-parser is. -/
theorem manyLoop_traceIndep {α : Type} (p : ParserH α) (hp : TraceIndep p)
    (input : List Char) :
    ∀ fuel index accum,
      Parser.manyLoop p input { trace := true } fuel index accum =
        Parser.manyLoop p input { trace := false } fuel index accum := by
  intro fuel
  induction fuel with
  | zero => intro index accum; rfl
  | succ n ih =>
    intro index accum
    unfold Parser.manyLoop
    split
    · rw [hp input index]
      cases p input index { trace := false } with
      | failure => rfl
      | success i v => exact ih i (accum ++ [v])
    · rfl

/-- Embeds `seq`'s loop is trace-independent when every sub-parser is. -/
theorem seqLoop_traceIndep {α : Type} (input : List Char) :
    ∀ (parsers : List (ParserH α)), (∀ p ∈ parsers, TraceIndep p) →
      ∀ index accum,
        seqLoop input { trace := true } parsers index accum =
          seqLoop input { trace := false } parsers index accum := by
  intro parsers
  induction parsers with
  | nil => intro _ index accum; rfl
  | cons p rest ih =>
    intro hm index accum
    unfold seqLoop
    rw [hm p (List.mem_cons_self p rest) input index]
    cases p input index { trace := false } with
    | failure => rfl
    | success i v => exact ih (fun q hq => hm q (List.mem_cons_of_mem p hq)) i (accum ++ [v])

/-- Embeds `alt` is trace-independent when every alternative is. -/
theorem alt_traceIndep {α : Type} :
    ∀ (parsers : List (ParserH α)), (∀ p ∈ parsers, TraceIndep p) →
      TraceIndep (alt parsers) := by
  intro parsers
  induction parsers with
  | nil => intro _ input index; rfl
  | cons p rest ih =>
    intro hm input index
    unfold alt
    rw [hm p (List.mem_cons_self p rest) input index]
    cases p input index { trace := false } with
    | success i v => rfl
    | failure => exact ih (fun q hq => hm q (List.mem_cons_of_mem p hq)) input index

/-- C6: enabling the diagnostics trace flag does not change parse outcomes.
In the source the flag only drives `console.log` in the wrapper the `Parser`
constructor installs, and both branches of that wrapper return the inner
handler's result unchanged; here the flag lives in the state that is
threaded into every sub-handler, and the theorem shows every primitive's
outcome ignores it and every combinator preserves that independence, so
every parser built from these primitives and combinators returns the same
`Result` under `trace := true` and `trace := false`. -/
theorem trace_flag_independence :
    (∀ value : List Char, TraceIndep (str value))
    ∧ (∀ exec, TraceIndep (regexp exec))
    ∧ TraceIndep char
    ∧ TraceIndep lineBegin
    ∧ TraceIndep lineEnd
    ∧ (∀ (α : Type) (p : ParserH α), TraceIndep p → TraceIndep (notMatch p))
    ∧ (∀ (α β : Type) (p : ParserH α) (fn : α → β), TraceIndep p → TraceIndep (Parser.map p fn))
    ∧ (∀ (α : Type) (p : ParserH α), TraceIndep p → TraceIndep (Parser.text p))
    ∧ (∀ (α : Type) (p : ParserH α) (min fuel : Nat),
        TraceIndep p → TraceIndepOpt (Parser.many p min fuel))
    ∧ (∀ (α β : Type) (p : ParserH α) (separator : ParserH β) (min : Int) (fuel : Nat),
        TraceIndep p → TraceIndep separator → TraceIndepOpt (Parser.sepRun p separator min fuel))
    ∧ (∀ (α : Type) (p : ParserH α), TraceIndep p → TraceIndep (Parser.option p))
    ∧ (∀ (α : Type) (parsers : List (ParserH α)),
        (∀ p ∈ parsers, TraceIndep p) → TraceIndep (seq parsers))
    ∧ (∀ (α : Type) (parsers : List (ParserH α)),
        (∀ p ∈ parsers, TraceIndep p) → TraceIndep (alt parsers))
    ∧ (∀ (α : Type) (fn : Unit → ParserH α), TraceIndep (fn ()) → TraceIndep (lazy fn)) := by
  refine ⟨?_, ?_, ?_, ?_, ?_, ?_, ?_, ?_, ?_, ?_, ?_, ?_, ?_, ?_⟩
  · intro value input index; rfl
  · intro exec input index; rfl
  · intro input index; rfl
  · intro input index; rfl
  · intro input index; rfl
  · intro α p hp input index
    unfold notMatch
    rw [hp input index]
  · intro α β p fn hp input index
    unfold Parser.map
    rw [hp input index]
  · intro α p hp input index
    unfold Parser.text
    rw [hp input index]
  · intro α p min fuel hp input index
    unfold Parser.many
    rw [manyLoop_traceIndep p hp input fuel index []]
  · intro α β p separator min fuel hp hs input index
    unfold Parser.sepRun
    rw [hp input index]
    cases p input index { trace := false } with
    | failure => rfl
    | success i v =>
      dsimp only
      have he : TraceIndep (Parser.sepElem p separator) := by
        intro input' index'
        unfold Parser.sepElem
        rw [hs input' index']
        cases separator input' index' { trace := false } with
        | failure => rfl
        | success j w => exact hp input' j
      unfold Parser.many
      rw [manyLoop_traceIndep (Parser.sepElem p separator) he input fuel i []]
  · intro α p hp input index
    unfold Parser.option
    refine alt_traceIndep _ ?_ input index
    intro q hq
    simp only [List.mem_cons, List.mem_singleton] at hq
    rcases hq with hq | hq | hq
    · subst hq
      intro input' index'
      unfold Parser.map
      rw [hp input' index']
    · subst hq
      intro input' index'
      rfl
    · cases hq
  · intro α parsers hm input index
    unfold seq
    exact seqLoop_traceIndep input parsers hm index []
  · intro α parsers hm
    exact alt_traceIndep parsers hm
  · intro α fn hp input index
    exact hp input index

/-- C6 witness: the `map` clause of the theorem applied to `char` at a
concrete input, with the `TraceIndep char` hypothesis discharged by the
theorem's own `char` clause; both runs produce the same success. -/
theorem trace_flag_independence_witness :
    Parser.map char (fun c => c) ['a'] 0 { trace := true } =
      Parser.map char (fun c => c) ['a'] 0 { trace := false } :=
  trace_flag_independence.2.2.2.2.2.2.1 Char Char char (fun c => c)
    trace_flag_independence.2.2.1 ['a'] 0

/-- C8: `many(min)` applied at the end-of-input index exits its loop at once
— for every sub-parser `p` (the right-hand side does not mention `p`, so
`p` is never consulted, even one that would succeed zero-width there) it
returns the empty accumulation: failure when `min > 0` and success with `[]`
at the unchanged index when `min = 0`, on any iteration budget of at least
one. -/
theorem many_at_end_of_input {α : Type} (p : ParserH α) (min fuel : Nat)
    (input : List Char) (st : StateBase) :
    Parser.many p min (fuel + 1) input input.length st =
      some (if 0 < min then Result.failure else Result.success input.length []) := by
  unfold Parser.many Parser.manyLoop
  simp

/-- The sub-parser can only succeed by strictly advancing the index. -/
def StrictConsume {α : Type} (p : ParserH α) : Prop :=
  ∀ input index st i v, p input index st = Result.success i v → index < i

/-- A sub-parser that succeeds without consuming input wherever `x` does not
follow: `notMatch(str("x"))`, built from the engine's own primitives. -/
def zeroWidthP : ParserH Unit := notMatch (str ['x'])

/-- C1 counterexample: with the zero-width-succeeding sub-parser
`notMatch(str("x"))` on input `"a"` at index 0, `many`'s accumulation loop
never exits — no iteration budget suffices — so the Repeat combinator does
not terminate for every sub-matcher, contrary to the claim. -/
theorem many_zero_width_diverges :
    ¬ Parser.ManyTerminates zeroWidthP ['a'] 0 { trace := false } := by
  have key : ∀ fuel accum,
      Parser.manyLoop zeroWidthP ['a'] { trace := false } fuel 0 accum = none := by
    intro fuel
    induction fuel with
    | zero => intro accum; rfl
    | succ n ih =>
      intro accum
      unfold Parser.manyLoop
      rw [if_pos (by simp)]
      have hz : zeroWidthP ['a'] 0 { trace := false } = Result.success 0 () := by decide
      rw [hz]
      exact ih (accum ++ [()])
  rintro ⟨fuel, r, hr⟩
  rw [key fuel []] at hr
  exact Option.noConfusion hr

/-- C1 amended: the Repeat combinator's accumulation loop terminates for
every sub-matcher that strictly consumes input on every success, on every
input, starting index and state (and hence for every `min`, which only
post-processes the loop's result); for a sub-matcher that can succeed
without consuming before the end of input the loop runs forever, as the
counterexample shows. -/
theorem many_terminates_of_strict_consume {α : Type} (p : ParserH α)
    (hp : StrictConsume p) (input : List Char) (index : Nat) (st : StateBase) :
    Parser.ManyTerminates p input index st := by
  suffices h : ∀ fuel index accum, input.length - index < fuel →
      ∃ r, Parser.manyLoop p input st fuel index accum = some r by
    obtain ⟨r, hr⟩ := h (input.length - index + 1) index [] (by omega)
    exact ⟨input.length - index + 1, r, hr⟩
  intro fuel
  induction fuel with
  | zero => intro index accum h; omega
  | succ n ih =>
    intro index accum h
    unfold Parser.manyLoop
    split
    · rename_i hlt
      cases hr : p input index st with
      | failure => exact ⟨(index, accum), rfl⟩
      | success i v =>
        have hi := hp input index st i v hr
        obtain ⟨r, hrec⟩ := ih i (accum ++ [v]) (by omega)
        exact ⟨r, hrec⟩
    · exact ⟨(index, accum), rfl⟩

/-- C1 witness: `char` strictly consumes, so `many`'s loop terminates on it
at a concrete input. -/
theorem many_terminates_witness :
    Parser.ManyTerminates char ['a'] 0 { trace := false } :=
  many_terminates_of_strict_consume char
    (by
      intro input index st i v h
      unfold char at h
      split at h
      · exact Result.noConfusion h
      · cases h; omega)
    ['a'] 0 { trace := false }

/-- C10: `sep(separator, min)` enforces its minimum at construction time:
with `min < 1` it throws (the constructed value is the `Error`, produced
before any input, index or state is examined — the error branch does not
contain a handler at all), and with `min >= 1` it returns the
`SeparatedRepeat` handler, every success of which carries at least one
occurrence of the element parser's value. -/
theorem sep_min_check {α β : Type} (p : ParserH α) (separator : ParserH β) (min : Int) :
    (min < 1 →
      Parser.sep p separator min =
        Except.error "\"min\" must be a value greater than or equal to 1.")
    ∧ (1 ≤ min →
        Parser.sep p separator min = Except.ok (Parser.sepRun p separator min)
        ∧ ∀ fuel input index st i vs,
            Parser.sepRun p separator min fuel input index st =
              some (Result.success i vs) → 1 ≤ vs.length) := by
  constructor
  · intro h
    unfold Parser.sep
    rw [if_pos h]
  · intro h
    constructor
    · unfold Parser.sep
      rw [if_neg (by omega)]
    · intro fuel input index st i vs hrun
      unfold Parser.sepRun at hrun
      cases hp : p input index st with
      | failure => rw [hp] at hrun; simp at hrun
      | success j v =>
        rw [hp] at hrun
        dsimp only at hrun
        cases hm : Parser.many (Parser.sepElem p separator) (min - 1).toNat fuel input j st with
        | none => rw [hm] at hrun; simp at hrun
        | some r =>
          rw [hm] at hrun
          cases r with
          | failure => simp at hrun
          | success k ws =>
            simp at hrun
            rw [← hrun.2]
            simp

/-- C10 witness: the theorem applied with `min = 0` (construction throws)
and, at `min = 1`, to a concrete successful run of the constructed handler
(`char` separated by `","` on input `"a"`), whose value has one element. -/
theorem sep_min_check_witness :
    Parser.sep char (str [',']) 0 =
      Except.error "\"min\" must be a value greater than or equal to 1."
    ∧ 1 ≤ (['a'] : List Char).length :=
  ⟨(sep_min_check char (str [',']) 0).1 (by decide),
    ((sep_min_check char (str [',']) 1).2 (by decide)).2 1 ['a'] 0 { trace := false } 1 ['a']
      (by decide)⟩

/-!
The hashtag matcher (`src/unnamed/part_002`). Its context services
(`MatcherContext`, `isAllowedAsBackChar`, `LfMatcher`, `CharCode`, the
`HASHTAG` node constructor) are code of this repository that is not under
`src/`, so they are modelled from the spec; the scan loop and the guard
rejecting empty or all-digit values are translated from the source.
-/

/-- Modelled from the spec: the mutable ParseContext of §3 restricted to
what the hashtag matcher touches — the immutable input text addressed by
integer offset and the current cursor position (`ctx.input`, `ctx.pos`);
the memo store and flags are not consulted by this matcher. -/
structure MatcherContext where
  input : List Char
  pos : Nat
deriving DecidableEq

/-- Modelled from the spec: the two-case outcome of a leaf matcher (§2, §6)
— `ctx.ok(result)` or `ctx.fail()`. -/
inductive MatchResult (α : Type) where
  | ok (result : α)
  | failed
deriving DecidableEq

/-- The character class of the source's break test
`/^[ 　\t.,!?'"#:/[\]【】()「」<>]/i` (the apostrophe and the double
quote are written by code point). -/
def hashtagBoundaryChars : List Char :=
  [' ', Char.ofNat 0x3000, '\t', '.', ',', '!', '?', Char.ofNat 39, Char.ofNat 34,
   '#', ':', '/', '[', ']', '【', '】', '(', ')', '「', '」', '<', '>']

def isBoundaryChar (c : Char) : Bool := hashtagBoundaryChars.contains c

def isAsciiDigit (c : Char) : Bool := '0' ≤ c && c ≤ '9'

/-- The value-scanning loop of `hashtagMatcher`, structurally recursive on
the number of remaining characters (each accepted iteration advances `pos`
by one and the end-of-input check bounds the loop, so the budget
`input.length - pos` chosen by `hashtagScan` never runs out before an
exit). Exits: a boundary character at the cursor, a line feed there
(`ctx.match(LfMatcher)`, a non-consuming test modelled as the abstract
predicate `lfTest` of the position), or the end of input; otherwise the
character is appended to the value and the cursor advances. Out of range
`charAt` yields the empty string, on which the boundary test fails, so the
`none` branch exits like the source's eof/lf checks do. -/
def hashtagScanAux (input : List Char) (lfTest : Nat → Bool) :
    Nat → Nat → List Char → List Char × Nat
  | 0, pos, value => (value, pos)
  | fuel + 1, pos, value =>
    match input.get? pos with
    | none => (value, pos)
    | some c =>
      if isBoundaryChar c then (value, pos)
      else if lfTest pos then (value, pos)
      else hashtagScanAux input lfTest fuel (pos + 1) (value ++ [c])

def hashtagScan (input : List Char) (lfTest : Nat → Bool) (value : List Char)
    (pos : Nat) : List Char × Nat :=
  hashtagScanAux input lfTest (input.length - pos) pos value

/-- Embeds `hashtagMatcher`: fails unless the preceding character admits a hashtag
(`isAllowedAsBackChar`, modelled as the abstract boolean `backOk` since the
helper is not under `src/` and only its boolean outcome matters here);
fails unless the character at the cursor is `#`; consumes the `#`, scans
the value, and fails when the value is empty or matches `/^[0-9]+$/`
(non-empty and composed solely of ASCII digits); otherwise produces the
`HASHTAG` node with that value at the advanced cursor. -/
def hashtagMatcher (backOk : Bool) (lfTest : Nat → Bool) (ctx : MatcherContext) :
    MatchResult (List Char) × MatcherContext :=
  if backOk = false then (MatchResult.failed, ctx)
  else if ctx.input.get? ctx.pos ≠ some '#' then (MatchResult.failed, ctx)
  else
    let scanned := hashtagScan ctx.input lfTest [] (ctx.pos + 1)
    let ctx' : MatcherContext := { ctx with pos := scanned.2 }
    if scanned.1.length = 0 ∨ (scanned.1.length ≠ 0 ∧ scanned.1.all isAsciiDigit = true) then
      (MatchResult.failed, ctx')
    else (MatchResult.ok scanned.1, ctx')

/-- C9: the hashtag matcher never produces a degenerate hashtag — every
produced node's value is non-empty and not composed solely of the ASCII
digits 0-9 — and when the scanned value would be empty or all-digits the
matcher fails instead. -/
theorem hashtag_not_degenerate (backOk : Bool) (lfTest : Nat → Bool) (ctx : MatcherContext) :
    (∀ v ctx', hashtagMatcher backOk lfTest ctx = (MatchResult.ok v, ctx') →
      v ≠ [] ∧ v.all isAsciiDigit = false)
    ∧ ((hashtagScan ctx.input lfTest [] (ctx.pos + 1)).1 = [] ∨
        (hashtagScan ctx.input lfTest [] (ctx.pos + 1)).1.all isAsciiDigit = true →
        ∀ v ctx', hashtagMatcher backOk lfTest ctx ≠ (MatchResult.ok v, ctx')) := by
  constructor
  · intro v ctx' h
    unfold hashtagMatcher at h
    split at h
    · simp at h
    · split at h
      · simp at h
      · dsimp only at h
        split at h
        · simp at h
        · rename_i hguard
          push_neg at hguard
          simp only [Prod.mk.injEq] at h
          obtain ⟨hv, -⟩ := h
          cases hv
          refine ⟨?_, ?_⟩
          · intro hnil
            exact hguard.1 (by simp [hnil])
          · rcases hguard.2 (hguard.1) with hall
            simpa using hall
  · intro hdeg v ctx' h
    unfold hashtagMatcher at h
    split at h
    · simp at h
    · split at h
      · simp at h
      · dsimp only at h
        split at h
        · simp at h
        · rename_i hguard
          push_neg at hguard
          rcases hdeg with hnil | hall
          · exact hguard.1 (by simp [hnil])
          · have := hguard.2 hguard.1
            exact absurd hall (by simpa using this)

/-- C9 witness: on input `"#ab c"` at position 0 (with an admissible back
character and no line feed) the matcher produces the value `"ab"`, which
the theorem certifies to be non-empty and not all-digits. -/
theorem hashtag_not_degenerate_witness :
    hashtagMatcher true (fun _ => false) ⟨['#', 'a', 'b', ' ', 'c'], 0⟩ =
      (MatchResult.ok ['a', 'b'], ⟨['#', 'a', 'b', ' ', 'c'], 3⟩)
    ∧ (['a', 'b'] ≠ [] ∧ (['a', 'b'] : List Char).all isAsciiDigit = false) :=
  ⟨by decide,
    (hashtag_not_degenerate true (fun _ => false) ⟨['#', 'a', 'b', ' ', 'c'], 0⟩).1
      ['a', 'b'] ⟨['#', 'a', 'b', ' ', 'c'], 3⟩ (by decide)⟩

/-!
The link rule (`src/src/internal/mfm/syntax/link.ts`). Its context services
(`syntax`, `ctx.char`, `ctx.str`, `ctx.matchChar`, `ctx.parser`,
`ctx.choice`, `pushNode`) and its sub-parsers (`inlineParser`,
`urlAltParser`, `urlParser`) are code of this repository that is not under
`src/`; the context operations are modelled from the spec (§3: a mutable
context holding the cursor position and contextual flags, not auto-rewound;
§4.2: literal/character consumption) and the sub-parsers are abstracted as
parameters returning an outcome and the updated context. The rule's own
control flow, including every assignment to the inside-link flag, is
translated from the source.
-/

/-- Modelled from the spec: the ParseContext fields the link rule touches —
the cursor position and the "inside-link" contextual flag (§3, §4.4); the
immutable input is passed separately; flag state is not automatically
rewound by backtracking (§3 Ownership). -/
structure ParseCtx where
  pos : Nat
  inLink : Bool
deriving DecidableEq

/-- Modelled from the spec: `ctx.char(code)` — consume the given character
at the cursor or fail without advancing. -/
def ctxChar (input : List Char) (c : Char) (ctx : ParseCtx) : Bool × ParseCtx :=
  if input.get? ctx.pos = some c then (true, { ctx with pos := ctx.pos + 1 })
  else (false, ctx)

/-- Modelled from the spec: `ctx.matchChar(code)` — test the character at
the cursor without consuming. -/
def ctxMatchChar (input : List Char) (c : Char) (ctx : ParseCtx) : Bool :=
  input.get? ctx.pos = some c

/-- Modelled from the spec: `ctx.str('](')` — consume that exact literal at
the cursor or fail without advancing (§4.2 Literal). -/
def ctxStrCloseOpen (input : List Char) (ctx : ParseCtx) : Bool × ParseCtx :=
  if input.get? ctx.pos = some ']' ∧ input.get? (ctx.pos + 1) = some '(' then
    (true, { ctx with pos := ctx.pos + 2 })
  else (false, ctx)

/-- The link-label loop of the source (`while (true) { if
(ctx.matchChar(closeBracket)) break; matched = ctx.parser(inlineParser); if
(!matched.ok) break; pushNode(matched.result, label); }`) with an iteration
budget; `none` means the budget ran out with the loop still going. The
inline parser is the abstract `inlineP`. -/
def linkLabelLoop {ι : Type} (input : List Char)
    (inlineP : ParseCtx → Option ι × ParseCtx) :
    Nat → ParseCtx → List ι → Option (List ι × ParseCtx)
  | 0, _, _ => none
  | fuel + 1, ctx, label =>
    if ctxMatchChar input ']' ctx then some (label, ctx)
    else
      match inlineP ctx with
      | (none, ctx') => some (label, ctx')
      | (some node, ctx') => linkLabelLoop input inlineP fuel ctx' (label ++ [node])

/-- The `LINK` node: the silent flag, the target (`url.props.url`), the
label. -/
structure MfmLink (ι : Type) where
  silent : Bool
  url : List Char
  label : List ι
deriving DecidableEq

/-- Embeds `linkParser`: an optional `?` (giving `silent`), a required `[`, the
label loop bracketed by `ctx.inLink = true` before and `ctx.inLink = false`
after it, a `label.length < 1` check, the `](` literal, the url
(`ctx.choice([urlAltParser, urlParser])` abstracted as `urlP`), and the
closing `)`. The outer `Option` is the label loop's budget (`none`: the
loop is still running); the inner `Option` is the rule's outcome, a `none`
being `ctx.fail()` with the context as the rule left it. -/
def linkParser {ι : Type} (input : List Char)
    (inlineP : ParseCtx → Option ι × ParseCtx)
    (urlP : ParseCtx → Option (List Char) × ParseCtx)
    (fuel : Nat) (ctx0 : ParseCtx) : Option (Option (MfmLink ι) × ParseCtx) :=
  let q := ctxChar input '?' ctx0
  let silent := q.1
  let b := ctxChar input '[' q.2
  if b.1 = false then some (none, b.2)
  else
    match linkLabelLoop input inlineP fuel { b.2 with inLink := true } [] with
    | none => none
    | some (label, ctx2) =>
      let ctx3 : ParseCtx := { ctx2 with inLink := false }
      if label.length < 1 then some (none, ctx3)
      else
        let s := ctxStrCloseOpen input ctx3
        if s.1 = false then some (none, s.2)
        else
          match urlP s.2 with
          | (none, ctx4) => some (none, ctx4)
          | (some url, ctx4) =>
            let pcl := ctxChar input ')' ctx4
            if pcl.1 = false then some (none, pcl.2)
            else some (some ⟨silent, url, label⟩, pcl.2)

/-- Embeds `ctx.char` leaves the inside-link flag alone. -/
theorem ctxChar_inLink (input : List Char) (c : Char) (ctx : ParseCtx) :
    ((ctxChar input c ctx).2).inLink = ctx.inLink := by
  unfold ctxChar
  split <;> rfl

/-- Embeds `ctx.str('](')` leaves the inside-link flag alone. -/
theorem ctxStrCloseOpen_inLink (input : List Char) (ctx : ParseCtx) :
    ((ctxStrCloseOpen input ctx).2).inLink = ctx.inLink := by
  unfold ctxStrCloseOpen
  split <;> rfl

/-- The input of the C2 counterexample: `"[a](b)"`. -/
def linkCexInput : List Char := ['[', 'a', ']', '(', 'b', ')']

/-- A concrete inline parser for the counterexample: consumes a single `a`
and leaves the flag alone. -/
def cexInline (ctx : ParseCtx) : Option Unit × ParseCtx :=
  if linkCexInput.get? ctx.pos = some 'a' then (some (), { ctx with pos := ctx.pos + 1 })
  else (none, ctx)

/-- A concrete url parser for the counterexample: consumes a single `b` and
leaves the flag alone. -/
def cexUrl (ctx : ParseCtx) : Option (List Char) × ParseCtx :=
  if linkCexInput.get? ctx.pos = some 'b' then (some ['b'], { ctx with pos := ctx.pos + 1 })
  else (none, ctx)

/-- C2 counterexample: the link rule entered on `"[a](b)"` with the
inside-link flag already `true` returns (successfully) with the flag
`false` — the source runs `ctx.inLink = false` unconditionally after the
label instead of restoring the prior value, so on this invocation the flag
does not equal its prior value when the rule returns. -/
theorem link_inLink_overwritten :
    (linkParser linkCexInput cexInline cexUrl 10 { pos := 0, inLink := true }).map
      (fun r => r.2.inLink) = some false := by decide

/-- C2 amended: when the link rule returns (its label loop having exited),
the inside-link flag is `false` on every path on which the `[` was consumed
— the success path and all subsequent failure paths, the rule writing
`false` unconditionally rather than the prior value — and keeps its prior
value only on the failure path where the `[` is absent; the url sub-parser
is assumed to leave the flag alone (the inline sub-parser need not be: the
write after the loop overwrites whatever it did). In particular a rule
entered with the flag `true` that consumes a `[` returns with it `false`. -/
theorem link_inLink_cleared {ι : Type} (input : List Char)
    (inlineP : ParseCtx → Option ι × ParseCtx)
    (urlP : ParseCtx → Option (List Char) × ParseCtx)
    (hurl : ∀ c, ((urlP c).2).inLink = c.inLink) :
    ∀ fuel ctx r ctx', linkParser input inlineP urlP fuel ctx = some (r, ctx') →
      ctx'.inLink =
        if (ctxChar input '[' (ctxChar input '?' ctx).2).1 = true then false
        else ctx.inLink := by
  intro fuel ctx r ctx' h
  unfold linkParser at h
  dsimp only at h
  split at h
  · rename_i hb
    simp only [Prod.mk.injEq, Option.some.injEq] at h
    rw [if_neg (by simp [hb])]
    rw [← h.2]
    rw [ctxChar_inLink, ctxChar_inLink]
  · rename_i hb
    rw [if_pos (by revert hb; cases (ctxChar input '[' (ctxChar input '?' ctx).2).1 <;> simp)]
    cases hl : linkLabelLoop input inlineP fuel
        { (ctxChar input '[' (ctxChar input '?' ctx).2).2 with inLink := true } [] with
    | none => rw [hl] at h; exact Option.noConfusion h
    | some lc =>
      rw [hl] at h
      obtain ⟨label, ctx2⟩ := lc
      dsimp only at h
      split at h
      · simp only [Option.some.injEq, Prod.mk.injEq] at h
        rw [← h.2]
      · split at h
        · rename_i hs
          simp only [Option.some.injEq, Prod.mk.injEq] at h
          rw [← h.2, ctxStrCloseOpen_inLink]
        · rename_i hs
          cases hu : urlP (ctxStrCloseOpen input { ctx2 with inLink := false }).2 with
          | mk uo ctx4 =>
            rw [hu] at h
            cases uo with
            | none =>
              dsimp only at h
              simp only [Option.some.injEq, Prod.mk.injEq] at h
              rw [← h.2]
              have := hurl (ctxStrCloseOpen input { ctx2 with inLink := false }).2
              rw [hu] at this
              rw [this, ctxStrCloseOpen_inLink]
            | some url =>
              dsimp only at h
              have h4 : ctx4.inLink = false := by
                have := hurl (ctxStrCloseOpen input { ctx2 with inLink := false }).2
                rw [hu] at this
                rw [this, ctxStrCloseOpen_inLink]
              split at h
              · simp only [Option.some.injEq, Prod.mk.injEq] at h
                rw [← h.2, ctxChar_inLink, h4]
              · simp only [Option.some.injEq, Prod.mk.injEq] at h
                rw [← h.2, ctxChar_inLink, h4]

/-- C2 witness: the amended theorem applied to the counterexample run — the
concrete url parser preserves the flag, the rule consumed the `[`, and the
returned flag is `false` accordingly. -/
theorem link_inLink_cleared_witness :
    (ParseCtx.inLink { pos := 6, inLink := false }) =
      (if (ctxChar linkCexInput '[' (ctxChar linkCexInput '?' { pos := 0, inLink := true }).2).1 = true
       then false
       else ParseCtx.inLink { pos := 0, inLink := true }) :=
  link_inLink_cleared linkCexInput cexInline cexUrl
    (by intro c; unfold cexUrl; split <;> rfl)
    10 { pos := 0, inLink := true } (some ⟨false, ['b'], [()]⟩)
    { pos := 6, inLink := false } (by decide)

end Rosee
